import Mathlib

/-!
Verification development for the protocol-guide ingestion pipeline.

The Python sources are shallowly embedded over `List Char` (one Lean
function per Python function, keeping the source's names where Lean
allows it).  Strings are `List Char`; Python slices `text[a:b]` become
`(text.drop a).take (b - a)`; the `while` loops of the chunkers are
embedded with an explicit fuel parameter (`none` = fuel exhausted,
which only happens when the Python loop fails to terminate within the
supplied iteration budget).
-/

/-- Whitespace per Python's `str.strip` / regex `\s` on ASCII text. -/
def isWS (c : Char) : Bool :=
  c = ' ' || c = '\t' || c = '\n' || c = '\r' || c = '\x0b' || c = '\x0c'

/-- Python `s.strip()`: drop leading and trailing whitespace. -/
def strip (s : List Char) : List Char :=
  ((s.dropWhile isWS).reverse.dropWhile isWS).reverse

/-- Python `s.rstrip()`: drop trailing whitespace only. -/
def rstrip (s : List Char) : List Char :=
  (s.reverse.dropWhile isWS).reverse

/-- Python `s.rfind(pat)`: the largest index where `pat` occurs as a
sublist of `s`, as an `Option` (Python returns -1 when absent). -/
def rfind (s pat : List Char) : Option Nat :=
  (List.range (s.length + 1)).foldl
    (fun acc i => if (s.drop i).take pat.length = pat then some i else acc) none

/-- Python `pat in s` (substring containment). -/
def hasSub (s pat : List Char) : Bool :=
  (List.range (s.length + 1)).any (fun i => (s.drop i).take pat.length == pat)

/-- Python `s.lower()` on ASCII text. -/
def lowerStr (s : List Char) : List Char := s.map Char.toLower

/-- Python `s.startswith(pre)`. -/
def strStarts (s pre : List Char) : Bool := s.take pre.length == pre

/-- Python `re.sub(r'\r\n', '\n', s)` (left-to-right, non-overlapping). -/
def replaceCRLF : List Char → List Char
  | [] => []
  | [c] => [c]
  | a :: b :: rest =>
    if a = '\r' && b = '\n' then '\n' :: replaceCRLF rest
    else a :: replaceCRLF (b :: rest)

/-- Python `re.sub(r'\n{3,}', '\n\n', s)`: every maximal run of `run`
newlines is replaced by `min run 2` newlines.  `run` counts the
pending newline run. -/
def collapseNL : List Char → Nat → List Char
  | [], run => List.replicate (min run 2) '\n'
  | c :: rest, run =>
    if c = '\n' then collapseNL rest (run + 1)
    else List.replicate (min run 2) '\n' ++ c :: collapseNL rest 0

/-- Python `re.sub(r'\s+', ' ', s)`: every maximal whitespace run
becomes a single space.  `pending` records an open whitespace run. -/
def wsSub : List Char → Bool → List Char
  | [], pending => if pending then [' '] else []
  | c :: rest, pending =>
    if isWS c then wsSub rest true
    else if pending then ' ' :: c :: wsSub rest false
    else c :: wsSub rest false

/-- Python `s.split(sep)` for a single-character separator. -/
def splitOnChar (sep : Char) : List Char → List (List Char)
  | [] => [[]]
  | c :: rest =>
    match splitOnChar sep rest with
    | [] => [[c]]
    | h :: t => if c = sep then [] :: h :: t else (c :: h) :: t

/-- Sentence separators tried by `chunk_text` of import_santa_clara.py. -/
def scSeps : List (List Char) := [['.', ' '], ['.', '\n'], ['?', ' '], ['!', ' ']]

/-- Sentence separators tried by `chunk_text` of ingest_solano_v3.py and
ingest_to_supabase.py (paragraph break is last in the same list). -/
def solSeps : List (List Char) :=
  [['.', ' '], ['.', '\n'], ['?', ' '], ['!', ' '], ['\n', '\n']]

/-- The `for sep in [...]` loop of the chunkers: the first separator in
`seps` whose rightmost occurrence in `w` lies strictly past `half`
wins; returns that occurrence's index and the separator's length. -/
def sepScan (w : List Char) (half : Nat) : List (List Char) → Option (Nat × Nat)
  | [] => none
  | sep :: rest =>
    match rfind w sep with
    | some p => if half < p then some (p, sep.length) else sepScan w half rest
    | none => sepScan w half rest

/-- The separator-then-space part of the chunkers' boundary search for
a window `w = text[start:start+cs]`: the first separator in `seps`
whose rightmost occurrence lies strictly past `cs / 2` sets the end,
else a plain space does, else the end stays `start + cs`. -/
def boundaryTail (cs start : Nat) (w : List Char) (seps : List (List Char)) : Nat :=
  match sepScan w (cs / 2) seps with
  | some pl => start + pl.1 + pl.2
  | none =>
    match rfind w [' '] with
    | some p => if cs / 2 < p then start + p + 1 else start + cs
    | none => start + cs

/-- Boundary search of import_santa_clara.py `chunk_text`: paragraph
break first (`rfind('\n\n')`, accepted strictly past `cs / 2`), then
sentence separators, then a plain space. -/
def scEnd (cs : Nat) (t : List Char) (start : Nat) : Nat :=
  match rfind ((t.drop start).take cs) ['\n', '\n'] with
  | some p =>
    if cs / 2 < p then start + p + 2
    else boundaryTail cs start ((t.drop start).take cs) scSeps
  | none => boundaryTail cs start ((t.drop start).take cs) scSeps

/-- The chunk end used by one iteration of the santa clara loop
(the boundary search runs only when the raw window ends early). -/
def scEndFull (cs : Nat) (t : List Char) (start : Nat) : Nat :=
  if start + cs < t.length then scEnd cs t start else start + cs

/-- `start = end - overlap if end < len(text) else end` of
import_santa_clara.py. -/
def scNext (cs ov : Nat) (t : List Char) (start : Nat) : Nat :=
  let e := scEndFull cs t start
  if e < t.length then e - ov else e

/-- `if chunk: chunks.append(chunk)` of import_santa_clara.py. -/
def pushChunk (acc : List (List Char)) (c : List Char) : List (List Char) :=
  if c = [] then acc else acc ++ [c]

/-- `if chunk and ...: chunks.append(chunk)` of the solano chunkers,
with the guard abstracted as `keep`. -/
def pushIf (keep : List Char → Bool) (acc : List (List Char)) (c : List Char) : List (List Char) :=
  if keep c then acc ++ [c] else acc

/-- The `while start < len(text)` loop of import_santa_clara.py
`chunk_text`, with fuel. -/
def chunkLoopSC (cs ov : Nat) (t : List Char) : Nat → Nat → List (List Char) → Option (List (List Char))
  | 0, _, _ => none
  | fuel + 1, start, acc =>
    if start < t.length then
      chunkLoopSC cs ov t fuel (scNext cs ov t start)
        (pushChunk acc (strip ((t.drop start).take (scEndFull cs t start - start))))
    else some acc

/-- `chunk_text` of import_santa_clara.py: normalize CRLF and blank-line
runs, strip, single chunk when short, else the overlapping-window loop. -/
def chunk_text_sc (cs ov : Nat) (text : List Char) : Option (List (List Char)) :=
  if strip text = [] then some []
  else
    let t := strip (collapseNL (replaceCRLF text) 0)
    if t.length ≤ cs then some [t]
    else chunkLoopSC cs ov t (t.length + 1) 0 []

/-- Boundary search of the solano chunkers (sentence separators with
the paragraph break last in the list, then a plain space). -/
def solEnd (cs : Nat) (t : List Char) (start : Nat) : Nat :=
  boundaryTail cs start ((t.drop start).take cs) solSeps

def solEndFull (cs : Nat) (t : List Char) (start : Nat) : Nat :=
  if start + cs < t.length then solEnd cs t start else start + cs

/-- The `while start < len(text)` loop shared by `chunk_text` of
ingest_solano_v3.py and ingest_to_supabase.py; they differ only in the
guard on appending a chunk (`keep`), and both advance
`start = end - overlap` unconditionally. -/
def chunkLoopSol (cs ov : Nat) (keep : List Char → Bool) (t : List Char) :
    Nat → Nat → List (List Char) → Option (List (List Char))
  | 0, _, _ => none
  | fuel + 1, start, acc =>
    if start < t.length then
      chunkLoopSol cs ov keep t fuel (solEndFull cs t start - ov)
        (pushIf keep acc (strip ((t.drop start).take (solEndFull cs t start - start))))
    else some acc

/-- Whitespace normalization shared by the solano chunkers:
`re.sub(r'\s+', ' ', text).strip()`. -/
def normalizeSol (text : List Char) : List Char := strip (wsSub text false)

/-- `chunk_text` of ingest_solano_v3.py (keeps a chunk only when it is
non-empty and longer than 50 characters). -/
def chunk_text_v3 (cs ov : Nat) (text : List Char) : Option (List (List Char)) :=
  if strip text = [] then some []
  else
    let t := normalizeSol text
    if t.length ≤ cs then some [t]
    else chunkLoopSol cs ov (fun c => !c.isEmpty && decide (50 < c.length)) t (t.length + 1) 0 []

/-- `chunk_text` of ingest_to_supabase.py (keeps every non-empty chunk). -/
def chunk_text_sup (cs ov : Nat) (text : List Char) : Option (List (List Char)) :=
  if strip text = [] then some []
  else
    let t := normalizeSol text
    if t.length ≤ cs then some [t]
    else chunkLoopSol cs ov (fun c => !c.isEmpty) t (t.length + 1) 0 []

/-- Concatenation of the chunks minus the first `ov` characters of each. -/
def joinDrop (ov : Nat) : List (List Char) → List Char
  | [] => []
  | c :: rest => c.drop ov ++ joinDrop ov rest

/-- Reconstruction from consecutive chunks' non-overlapping portions:
the first chunk in full, then each later chunk minus the configured
overlap. -/
def recon (ov : Nat) : List (List Char) → List Char
  | [] => []
  | c :: rest => c ++ joinDrop ov rest

/-! Categorizers. -/

/-- Keyword groups of `categorize_protocol` in ingest_solano_v3.py,
one Bool per `if` line, in source order. -/
def v3CardiacHit (l : List Char) : Bool :=
  hasSub l (String.toList "cardiac") || hasSub l (String.toList "arrest") ||
  hasSub l (String.toList "stemi") || hasSub l (String.toList "cpr") ||
  hasSub l (String.toList "aed")

def v3TraumaHit (l : List Char) : Bool :=
  hasSub l (String.toList "trauma") || hasSub l (String.toList "injury") ||
  hasSub l (String.toList "hemorrhage") || hasSub l (String.toList "burn")

def v3PediatricHit (l : List Char) : Bool :=
  hasSub l (String.toList "pediatric") || hasSub l (String.toList "child") ||
  hasSub l (String.toList "infant") || hasSub l (String.toList "neonate")

def v3RespiratoryHit (l : List Char) : Bool :=
  hasSub l (String.toList "airway") || hasSub l (String.toList "respiratory") ||
  hasSub l (String.toList "breathing") || hasSub l (String.toList "intubat")

def v3NeuroHit (l : List Char) : Bool :=
  hasSub l (String.toList "stroke") || hasSub l (String.toList "seizure") ||
  hasSub l (String.toList "neurolog") || hasSub l (String.toList "altered mental")

def v3ToxHit (l : List Char) : Bool :=
  hasSub l (String.toList "overdose") || hasSub l (String.toList "poison") ||
  hasSub l (String.toList "toxic")

def v3BehavioralHit (l : List Char) : Bool :=
  hasSub l (String.toList "behavioral") || hasSub l (String.toList "psychiatric") ||
  hasSub l (String.toList "mental health")

def v3ObstetricHit (l : List Char) : Bool :=
  hasSub l (String.toList "obstetric") || hasSub l (String.toList "pregnancy") ||
  hasSub l (String.toList "labor") || hasSub l (String.toList "delivery")

def v3EnvironmentalHit (l : List Char) : Bool :=
  hasSub l (String.toList "environment") || hasSub l (String.toList "heat") ||
  hasSub l (String.toList "cold") || hasSub l (String.toList "drowning")

/-- The path fallback of `categorize_protocol` in ingest_solano_v3.py:
`parts = category_path.split('/'); parts[1] or 'General'` when there is
a second segment, else `'General'`. -/
def v3PathTail (category_path : List Char) : List Char :=
  match splitOnChar '/' category_path with
  | _ :: s :: _ => if s = [] then String.toList "General" else s
  | _ => String.toList "General"

/-- `categorize_protocol` of ingest_solano_v3.py.  Note the source
checks the behavioral group BEFORE the obstetric group. -/
def categorize_protocol_v3 (doc_name category_path : List Char) : List Char :=
  let lower := lowerStr (doc_name ++ ' ' :: category_path)
  if v3CardiacHit lower then String.toList "Cardiac"
  else if v3TraumaHit lower then String.toList "Trauma"
  else if v3PediatricHit lower then String.toList "Pediatric"
  else if v3RespiratoryHit lower then String.toList "Respiratory"
  else if v3NeuroHit lower then String.toList "Neurological"
  else if v3ToxHit lower then String.toList "Toxicology"
  else if v3BehavioralHit lower then String.toList "Behavioral"
  else if v3ObstetricHit lower then String.toList "Obstetrics"
  else if v3EnvironmentalHit lower then String.toList "Environmental"
  else if hasSub lower (String.toList "procedure") then String.toList "Procedures"
  else if hasSub lower (String.toList "policy") || hasSub lower (String.toList "policies") then String.toList "Policies"
  else if hasSub lower (String.toList "assessment") then String.toList "Assessment"
  else v3PathTail category_path

/-- Keyword groups of `categorize_protocol` in import_santa_clara.py
(clinical section, `protocol_num.startswith('7')`). -/
def scCardiacHit (l : List Char) : Bool :=
  hasSub l (String.toList "cardiac") || hasSub l (String.toList "arrest") ||
  hasSub l (String.toList "stemi") || hasSub l (String.toList "cpr") ||
  hasSub l (String.toList "aed")

def scTraumaHit (l : List Char) : Bool :=
  hasSub l (String.toList "trauma") || hasSub l (String.toList "injury") ||
  hasSub l (String.toList "hemorrhage") || hasSub l (String.toList "bleeding") ||
  hasSub l (String.toList "crush") || hasSub l (String.toList "burns")

def scPediatricHit (l : List Char) : Bool :=
  hasSub l (String.toList "pediatric") || hasSub l (String.toList "child") ||
  hasSub l (String.toList "infant") || hasSub l (String.toList "neonate") ||
  hasSub l (String.toList "neonatal")

def scRespiratoryHit (l : List Char) : Bool :=
  hasSub l (String.toList "airway") || hasSub l (String.toList "respiratory") ||
  hasSub l (String.toList "breathing") || hasSub l (String.toList "intubat") ||
  hasSub l (String.toList "asthma") || hasSub l (String.toList "copd")

def scNeuroHit (l : List Char) : Bool :=
  hasSub l (String.toList "stroke") || hasSub l (String.toList "seizure") ||
  hasSub l (String.toList "neurolog") || hasSub l (String.toList "altered mental") ||
  hasSub l (String.toList "syncope")

def scToxHit (l : List Char) : Bool :=
  hasSub l (String.toList "overdose") || hasSub l (String.toList "poison") ||
  hasSub l (String.toList "toxic") || hasSub l (String.toList "narcan")

def scObGynHit (l : List Char) : Bool :=
  hasSub l (String.toList "pregnancy") || hasSub l (String.toList "childbirth") ||
  hasSub l (String.toList "obstetric") || hasSub l (String.toList "labor") ||
  hasSub l (String.toList "ob/gyn") || hasSub l (String.toList "delivery")

def scBehavioralHit (l : List Char) : Bool :=
  hasSub l (String.toList "behavioral") || hasSub l (String.toList "psychiatric") ||
  hasSub l (String.toList "agitat") || hasSub l (String.toList "5150") ||
  hasSub l (String.toList "mental health")

def scEnvironmentalHit (l : List Char) : Bool :=
  hasSub l (String.toList "burn") || hasSub l (String.toList "hyperthermia") ||
  hasSub l (String.toList "hypothermia") || hasSub l (String.toList "environmental") ||
  hasSub l (String.toList "drowning")

/-- `categorize_protocol` of import_santa_clara.py. -/
def categorize_protocol_sc (protocol_num title content : List Char) : List Char :=
  let lower := lowerStr (title ++ ' ' :: content)
  if strStarts protocol_num (String.toList "7") then
    if scCardiacHit lower then String.toList "Cardiac"
    else if scTraumaHit lower then String.toList "Trauma"
    else if scPediatricHit lower then String.toList "Pediatric"
    else if scRespiratoryHit lower then String.toList "Respiratory"
    else if scNeuroHit lower then String.toList "Neurological"
    else if scToxHit lower then String.toList "Toxicology"
    else if scObGynHit lower then String.toList "OB/GYN"
    else if scBehavioralHit lower then String.toList "Behavioral"
    else if scEnvironmentalHit lower then String.toList "Environmental"
    else String.toList "Clinical - General"
  else if strStarts protocol_num (String.toList "1") then String.toList "Administrative"
  else if strStarts protocol_num (String.toList "2") then String.toList "Personnel"
  else if strStarts protocol_num (String.toList "3") then String.toList "System Providers"
  else if strStarts protocol_num (String.toList "4") then String.toList "Facilities"
  else if strStarts protocol_num (String.toList "5") then String.toList "Communications"
  else if strStarts protocol_num (String.toList "6") then String.toList "Operations"
  else if strStarts protocol_num (String.toList "8") then String.toList "Reference Materials"
  else if strStarts protocol_num (String.toList "9") then String.toList "Forms"
  else String.toList "General"

/-- Modelled from the spec: the fixed category taxonomy of section 4.2
("Cardiac, Trauma, ..., Clinical-General, General"), written out with
the obstetric and clinical-general entries in both spellings that
appear in the spec and the code. -/
def specTaxonomy : List (List Char) :=
  [String.toList "Cardiac", String.toList "Trauma", String.toList "Pediatric",
   String.toList "Respiratory", String.toList "Neurological", String.toList "Toxicology",
   String.toList "Obstetrics", String.toList "OB/GYN", String.toList "OB-GYN",
   String.toList "Behavioral", String.toList "Environmental", String.toList "Procedures",
   String.toList "Policies", String.toList "Assessment", String.toList "Administrative",
   String.toList "Personnel", String.toList "System Providers", String.toList "Facilities",
   String.toList "Communications", String.toList "Operations",
   String.toList "Reference Materials", String.toList "Forms",
   String.toList "Clinical-General", String.toList "Clinical - General",
   String.toList "General"]

/-- The labels `categorize_protocol` of ingest_solano_v3.py can return
from its keyword checks and final fallback (everything except the
category-path second segment). -/
def v3KeywordLabels : List (List Char) :=
  [String.toList "Cardiac", String.toList "Trauma", String.toList "Pediatric",
   String.toList "Respiratory", String.toList "Neurological", String.toList "Toxicology",
   String.toList "Behavioral", String.toList "Obstetrics", String.toList "Environmental",
   String.toList "Procedures", String.toList "Policies", String.toList "Assessment",
   String.toList "General"]

/-! Filename / metadata parsers. -/

/-- Python `filename.replace('.pdf', '')` (left-to-right, non-overlapping). -/
def replacePdf : List Char → List Char
  | [] => []
  | [a] => [a]
  | [a, b] => [a, b]
  | [a, b, c] => [a, b, c]
  | a :: b :: c :: d :: rest =>
    if a = '.' && b = 'p' && c = 'd' && d = 'f' then replacePdf rest
    else a :: replacePdf (b :: c :: d :: rest)

def underscoreToSpace (s : List Char) : List Char :=
  s.map (fun c => if c = '_' then ' ' else c)

/-- Whether a name starts with a digit (equivalently, whether the
anchored regex of parse_filename can match it). -/
def headDigit : List Char → Bool
  | c :: _ => c.isDigit
  | [] => false

def isUpperOrDigit (c : Char) : Bool := ('A' ≤ c && c ≤ 'Z') || c.isDigit

/-- The matched branch of `re.match(r'^(\d+(?:-[A-Z0-9]+)?)\s*_?-?\s*_?(.*)$', name)`
in parse_filename: group 1 is the maximal leading digit run, optionally
extended by a hyphen and a maximal `[A-Z0-9]` run; the separator part
consumes greedy whitespace and optional underscores/hyphen; group 2 is
the rest.  Faithful to the regex for names without a newline (the only
place backtracking could differ). -/
def parseMatched (name : List Char) : List Char × List Char :=
  let ds := name.takeWhile Char.isDigit
  let r1 := name.drop ds.length
  let numR2 : List Char × List Char :=
    match r1 with
    | '-' :: rest =>
      let al := rest.takeWhile isUpperOrDigit
      if al.isEmpty then (ds, r1) else (ds ++ '-' :: al, rest.drop al.length)
    | _ => (ds, r1)
  let r3 := numR2.2.dropWhile isWS
  let r4 := match r3 with | '_' :: rest => rest | l => l
  let r5 := match r4 with | '-' :: rest => rest | l => l
  let r6 := r5.dropWhile isWS
  let r7 := match r6 with | '_' :: rest => rest | l => l
  (numR2.1, strip (underscoreToSpace r7))

/-- `parse_filename` of import_santa_clara.py: the anchored regex
matches exactly when the cleaned name starts with a digit; otherwise
`('Unknown', name.replace('_', ' '))`. -/
def parse_filename (filename : List Char) : List Char × List Char :=
  let name := replacePdf filename
  match name with
  | c :: _ =>
    if c.isDigit then parseMatched name
    else (String.toList "Unknown", underscoreToSpace name)
  | [] => (String.toList "Unknown", underscoreToSpace name)

/-- First solano pattern `^([A-Z]-?\d{3,})` (with the regex's
backtracking over the optional hyphen made explicit). -/
def solPat1 : List Char → Option (List Char)
  | c :: rest =>
    if 'A' ≤ c && c ≤ 'Z' then
      match rest with
      | '-' :: r2 =>
        let d := r2.takeWhile Char.isDigit
        if 3 ≤ d.length then some (c :: '-' :: d) else none
      | _ =>
        let d := rest.takeWhile Char.isDigit
        if 3 ≤ d.length then some (c :: d) else none
    else none
  | [] => none

/-- Second solano pattern `^(\d{3,}[-.]?\d*)`. -/
def solPat2 (dn : List Char) : Option (List Char) :=
  let d := dn.takeWhile Char.isDigit
  if 3 ≤ d.length then
    match dn.drop d.length with
    | c :: r2 =>
      if c = '-' || c = '.' then some (d ++ c :: r2.takeWhile Char.isDigit) else some d
    | [] => some d
  else none

def isBracketClass (c : Char) : Bool := ('A' ≤ c && c ≤ 'Z') || c.isDigit || c = '-'

/-- Third solano pattern `\[([A-Z0-9-]+)\]` via `re.search` (leftmost
opening bracket with a non-empty class run closed by `]`). -/
def solPat3 : List Char → Option (List Char)
  | '[' :: rest =>
    let run := rest.takeWhile isBracketClass
    if !run.isEmpty && (rest.drop run.length).take 1 = [']'] then some run
    else solPat3 rest
  | _ :: rest => solPat3 rest
  | [] => none

/-- The `for pattern in patterns` search of extract_protocol_number. -/
def solPatterns (dn : List Char) : Option (List Char) :=
  match solPat1 dn with
  | some g => some g
  | none =>
    match solPat2 dn with
    | some g => some g
    | none => solPat3 dn

/-- `extract_protocol_number` of ingest_solano_v3.py. -/
def extract_protocol_number (doc_name short_name : List Char) : List Char :=
  match short_name with
  | _ :: _ => short_name.take 50
  | [] =>
    match solPatterns doc_name with
    | some g => g.take 50
    | none => (doc_name.take 20).map (fun c => if c = ' ' then '-' else c)

/-! Ingestion-run skeleton (delete-then-insert control flow). -/

/-- Outcome counters of one ingestion run (chunk records are abstracted
to opaque values; only the control flow is modelled). -/
structure RunSummary where
  inserted : Nat
  errors : Nat
  deleteAttempted : Bool
  batchesTried : Nat
deriving DecidableEq, Repr

/-- `range(0, len(l), bs)` batching, by fuel on the list length. -/
def toBatchesGo (bs : Nat) : Nat → List Nat → List (List Nat)
  | 0, _ => []
  | _, [] => []
  | fuel + 1, l => l.take bs :: toBatchesGo bs fuel (l.drop bs)

def toBatches (bs : Nat) (l : List Nat) : List (List Nat) := toBatchesGo bs l.length l

def runBatches (start : RunSummary) (batchOk : List Nat → Bool) (bs : List (List Nat)) : RunSummary :=
  bs.foldl
    (fun s b =>
      if batchOk b then
        ⟨s.inserted + b.length, s.errors, s.deleteAttempted, s.batchesTried + 1⟩
      else
        ⟨s.inserted, s.errors + b.length, s.deleteAttempted, s.batchesTried + 1⟩)
    start

/-- The tail of `main` in import_santa_clara.py: early exit when no
chunks, otherwise `supabase_delete_existing()` is invoked with its
boolean result discarded (`deleteOk` is bound nowhere), then every
batch of 20 gets an embed+upsert attempt; a failed batch only adds to
the error counter. -/
def mainRunSC (allChunks : List Nat) (_deleteOk : Bool) (batchOk : List Nat → Bool) : RunSummary :=
  if allChunks = [] then ⟨0, 0, false, 0⟩
  else
    runBatches ⟨0, 0, true, 0⟩ batchOk (toBatches 20 allChunks)

/-- The tail of `main` in ingest_solano_v3.py: `delete_existing_chunks`
prints a warning when the delete fails (`deleteOk` false) and the run
continues to every batch of 10 unconditionally. -/
def mainRunV3 (allChunks : List Nat) (_deleteOk : Bool) (batchOk : List Nat → Bool) : RunSummary :=
  runBatches ⟨0, 0, true, 0⟩ batchOk (toBatches 10 allChunks)

/-! Chunk identity key of ingest_to_supabase.py. -/

/-- One document record of protocols_data.json as consumed by
ingest_to_supabase.py. -/
structure SolanoDoc where
  long_name : String
  extracted_text : String
  short_name : String
  category_path : String
  download_url : String
deriving DecidableEq, Repr

/-- The string hashed by `hashlib.md5(f"{AGENCY_NAME}:{doc_name}:{i}")`
in `main` of ingest_to_supabase.py, where `doc_name = doc['long_name']`. -/
def solanoChunkKeyInput (d : SolanoDoc) (i : Nat) : String :=
  "Solano County EMS Agency" ++ ":" ++ d.long_name ++ ":" ++ toString i

/-- `chunk_id` as a function of the document and ordinal, over an
arbitrary hex-digest function standing for md5. -/
def solanoChunkId (md5hex : String → String) (d : SolanoDoc) (i : Nat) : String :=
  md5hex (solanoChunkKeyInput d i)

/-! Lemmas about the embedded string primitives. -/

lemma rfind_foldl_inv (s pat : List Char) :
    ∀ (l : List Nat) (acc : Option Nat) (p : Nat),
      (∀ q, acc = some q → (s.drop q).take pat.length = pat) →
      l.foldl (fun a i => if (s.drop i).take pat.length = pat then some i else a) acc = some p →
      (s.drop p).take pat.length = pat := by
  intro l
  induction l with
  | nil => intro acc p hacc h; exact hacc p h
  | cons i l ih =>
    intro acc p hacc h
    simp only [List.foldl_cons] at h
    refine ih _ p ?_ h
    intro q hq
    by_cases hm : (s.drop i).take pat.length = pat
    · rw [if_pos hm] at hq
      injection hq with hq
      subst hq; exact hm
    · rw [if_neg hm] at hq
      exact hacc q hq

lemma rfind_spec {s pat : List Char} {p : Nat} (h : rfind s pat = some p) :
    (s.drop p).take pat.length = pat := by
  unfold rfind at h
  exact rfind_foldl_inv s pat _ none p (by intro q hq; cases hq) h

lemma rfind_le {s pat : List Char} {p : Nat} (hne : pat ≠ []) (h : rfind s pat = some p) :
    p + pat.length ≤ s.length := by
  have hs := rfind_spec h
  have hlen : ((s.drop p).take pat.length).length = pat.length := by rw [hs]
  rw [List.length_take, List.length_drop] at hlen
  have h1 : pat.length ≤ s.length - p := min_eq_left_iff.mp hlen
  have hp : 0 < pat.length := List.length_pos.mpr hne
  omega

lemma rfind_mem {s pat : List Char} {p : Nat} (h : rfind s pat = some p) :
    ∀ c ∈ pat, c ∈ s := by
  intro c hc
  have hs := rfind_spec h
  rw [← hs] at hc
  exact List.mem_of_mem_drop (List.mem_of_mem_take hc)

lemma rfind_none_of_not_mem {w pat : List Char} {c : Char}
    (hcpat : c ∈ pat) (hw : c ∉ w) : rfind w pat = none := by
  cases h : rfind w pat with
  | none => rfl
  | some p => exact absurd (rfind_mem h c hcpat) hw

lemma sepScan_spec {w : List Char} {half : Nat} :
    ∀ {L : List (List Char)} {pl : Nat × Nat}, sepScan w half L = some pl →
      ∃ sep ∈ L, rfind w sep = some pl.1 ∧ sep.length = pl.2 ∧ half < pl.1 := by
  intro L
  induction L with
  | nil => intro pl h; simp [sepScan] at h
  | cons sep rest ih =>
    intro pl h
    cases hr : rfind w sep with
    | some p =>
      simp only [sepScan, hr] at h
      by_cases hh : half < p
      · rw [if_pos hh] at h
        injection h with h
        subst h
        exact ⟨sep, List.mem_cons_self _ _, hr, rfl, hh⟩
      · rw [if_neg hh] at h
        obtain ⟨s, hs, h1, h2, h3⟩ := ih h
        exact ⟨s, List.mem_cons_of_mem _ hs, h1, h2, h3⟩
    | none =>
      simp only [sepScan, hr] at h
      obtain ⟨s, hs, h1, h2, h3⟩ := ih h
      exact ⟨s, List.mem_cons_of_mem _ hs, h1, h2, h3⟩

lemma sepScan_eq_none {w : List Char} {half : Nat} :
    ∀ {L : List (List Char)}, (∀ sep ∈ L, rfind w sep = none) → sepScan w half L = none := by
  intro L
  induction L with
  | nil => intro _; rfl
  | cons sep rest ih =>
    intro h
    simp only [sepScan]
    rw [h sep (List.mem_cons_self _ _)]
    exact ih (fun s hs => h s (List.mem_cons_of_mem _ hs))

/-! Lemmas about `strip`. -/

lemma strip_sublist {c : Char} {s : List Char} (h : c ∈ strip s) : c ∈ s := by
  unfold strip at h
  rw [List.mem_reverse] at h
  have h1 : c ∈ (s.dropWhile isWS).reverse := (List.dropWhile_sublist isWS).subset h
  rw [List.mem_reverse] at h1
  exact (List.dropWhile_sublist isWS).subset h1

lemma strip_length_le (s : List Char) : (strip s).length ≤ s.length := by
  unfold strip
  rw [List.length_reverse]
  calc ((s.dropWhile isWS).reverse.dropWhile isWS).length
      ≤ (s.dropWhile isWS).reverse.length := (List.dropWhile_sublist isWS).length_le
    _ = (s.dropWhile isWS).length := List.length_reverse _
    _ ≤ s.length := (List.dropWhile_sublist isWS).length_le

lemma dropWhile_ws_eq_self {s : List Char} (h : ∀ c ∈ s, isWS c = false) :
    s.dropWhile isWS = s := by
  cases s with
  | nil => rfl
  | cons c r => rw [List.dropWhile_cons, h c (List.mem_cons_self _ _)]; simp

lemma strip_of_ws_free {s : List Char} (h : ∀ c ∈ s, isWS c = false) : strip s = s := by
  unfold strip
  rw [dropWhile_ws_eq_self h,
      dropWhile_ws_eq_self (by intro c hc; exact h c (List.mem_reverse.mp hc)),
      List.reverse_reverse]

lemma strip_mem_of_nonws {c : Char} {s : List Char} (hc : c ∈ s) (hws : isWS c = false) :
    c ∈ strip s := by
  have step : ∀ (l : List Char), c ∈ l → c ∈ l.dropWhile isWS := by
    intro l hl
    have hl2 : c ∈ l.takeWhile isWS ++ l.dropWhile isWS := by
      rw [List.takeWhile_append_dropWhile]; exact hl
    rcases List.mem_append.mp hl2 with h1 | h2
    · exact absurd (List.mem_takeWhile_imp h1) (by simp [hws])
    · exact h2
  unfold strip
  rw [List.mem_reverse]
  exact step _ (List.mem_reverse.mpr (step _ hc))

lemma exists_nonws_of_strip_ne_nil {s : List Char} (h : strip s ≠ []) :
    ∃ c ∈ strip s, isWS c = false := by
  have hdw : ∀ (l : List Char), l.dropWhile isWS ≠ [] →
      isWS ((l.dropWhile isWS).headI) = false := by
    intro l
    induction l with
    | nil => intro hl; simp at hl
    | cons a r ih =>
      intro hl
      by_cases ha : isWS a
      · rw [List.dropWhile_cons, if_pos ha] at hl ⊢
        exact ih hl
      · rw [List.dropWhile_cons, if_neg ha]
        simpa [List.headI] using Bool.eq_false_iff.mpr ha
  obtain ⟨pre, hpre⟩ := List.dropWhile_suffix (l := (s.dropWhile isWS).reverse) isWS
  obtain ⟨x, rest, hx⟩ := List.exists_cons_of_ne_nil h
  have h2 : strip s ++ pre.reverse = s.dropWhile isWS := by
    have h3 := congrArg List.reverse hpre
    rw [List.reverse_append, List.reverse_reverse] at h3
    exact h3
  have hdne : s.dropWhile isWS ≠ [] := by
    rw [← h2, hx]; simp
  have hxx : (s.dropWhile isWS).headI = x := by
    rw [← h2, hx]; rfl
  refine ⟨x, by rw [hx]; exact List.mem_cons_self _ _, ?_⟩
  rw [← hxx]
  exact hdw s hdne

lemma strip_ne_nil_parts {s : List Char} (h : strip s ≠ []) :
    ∃ c ∈ s, isWS c = false := by
  obtain ⟨c, hc, hw⟩ := exists_nonws_of_strip_ne_nil h
  exact ⟨c, strip_sublist hc, hw⟩

/-! Character preservation through the normalizers. -/

lemma replaceCRLF_cons_nonCR {a : Char} (ha : a ≠ '\r') (r : List Char) :
    replaceCRLF (a :: r) = a :: replaceCRLF r := by
  cases r with
  | nil => simp [replaceCRLF]
  | cons b r2 => simp [replaceCRLF, ha]

lemma replaceCRLF_mem {c : Char} (hc : c ≠ '\r') :
    ∀ {s : List Char}, c ∈ s → c ∈ replaceCRLF s := by
  intro s
  induction s with
  | nil => intro h; cases h
  | cons a r ih =>
    intro h
    cases r with
    | nil =>
      rw [List.mem_singleton] at h
      subst h
      simp [replaceCRLF]
    | cons b r2 =>
      by_cases hab : a = '\r' ∧ b = '\n'
      · obtain ⟨ha, hb⟩ := hab
        subst ha; subst hb
        have hg : (('\r' : Char) = '\r' && ('\n' : Char) = '\n') = true := by decide
        simp only [replaceCRLF, hg, if_true]
        rcases List.mem_cons.mp h with h1 | h2
        · exact absurd h1 hc
        · have h3 : c ∈ replaceCRLF ('\n' :: r2) := ih h2
          rwa [replaceCRLF_cons_nonCR (by decide)] at h3
      · have hg : (a = '\r' && b = '\n') = false := by
          by_cases ha : a = '\r'
          · have hb : ¬ b = '\n' := fun hb => hab ⟨ha, hb⟩
            simp [ha, hb]
          · simp [ha]
        simp only [replaceCRLF, hg, Bool.false_eq_true, if_false]
        rcases List.mem_cons.mp h with h1 | h2
        · exact h1 ▸ List.mem_cons_self _ _
        · exact List.mem_cons_of_mem _ (ih h2)

lemma collapseNL_mem {c : Char} (hc : c ≠ '\n') :
    ∀ (s : List Char) (run : Nat), c ∈ s → c ∈ collapseNL s run := by
  intro s
  induction s with
  | nil => intro run h; cases h
  | cons a r ih =>
    intro run h
    by_cases ha : a = '\n'
    · subst ha
      simp only [collapseNL, if_pos rfl]
      rcases List.mem_cons.mp h with h1 | h2
      · exact absurd h1 hc
      · exact ih (run + 1) h2
    · simp only [collapseNL, if_neg ha]
      rcases List.mem_cons.mp h with h1 | h2
      · exact h1 ▸ List.mem_append_right _ (List.mem_cons_self _ _)
      · exact List.mem_append_right _ (List.mem_cons_of_mem _ (ih 0 h2))

lemma wsSub_mem {c : Char} (hc : isWS c = false) :
    ∀ (s : List Char) (b : Bool), c ∈ s → c ∈ wsSub s b := by
  intro s
  induction s with
  | nil => intro b h; cases h
  | cons a r ih =>
    intro b h
    by_cases ha : isWS a
    · simp only [wsSub, if_pos ha]
      rcases List.mem_cons.mp h with h1 | h2
      · exact absurd (h1 ▸ hc) (by simp [ha])
      · exact ih true h2
    · rcases List.mem_cons.mp h with h1 | h2
      · subst h1
        cases b with
        | true => simp [wsSub, ha]
        | false => simp [wsSub, ha]
      · cases b with
        | true =>
          simp only [wsSub, if_neg ha, if_pos rfl]
          exact List.mem_cons_of_mem _ (List.mem_cons_of_mem _ (ih false h2))
        | false =>
          simp only [wsSub, if_neg ha]
          exact List.mem_cons_of_mem _ (by simpa using ih false h2)

lemma wsSub_chars {c : Char} :
    ∀ {s : List Char} {b : Bool}, c ∈ wsSub s b → c = ' ' ∨ isWS c = false := by
  intro s
  induction s with
  | nil =>
    intro b h
    cases b with
    | true => simp only [wsSub, if_pos] at h; rw [List.mem_singleton] at h; exact Or.inl h
    | false => simp only [wsSub] at h; simp at h
  | cons a r ih =>
    intro b h
    by_cases ha : isWS a
    · simp only [wsSub, if_pos ha] at h
      exact ih h
    · have ha' : isWS a = false := Bool.eq_false_iff.mpr ha
      cases b with
      | true =>
        simp only [wsSub, if_neg ha, if_pos rfl] at h
        rcases List.mem_cons.mp h with h1 | h2
        · exact Or.inl h1
        · rcases List.mem_cons.mp h2 with h3 | h4
          · exact Or.inr (h3 ▸ ha')
          · exact ih h4
      | false =>
        simp only [wsSub, if_neg ha] at h
        rcases List.mem_cons.mp h with h1 | h2
        · exact Or.inr (h1 ▸ ha')
        · exact ih (by simpa using h2)

lemma normalizeSol_chars {c : Char} {text : List Char} (h : c ∈ normalizeSol text) :
    c = ' ' ∨ isWS c = false :=
  wsSub_chars (strip_sublist h)

/-! Bounds for the boundary search. -/

lemma boundaryTail_bounds (cs start : Nat) (w : List Char) (seps : List (List Char))
    (hw : w.length ≤ cs) (hsep : ∀ s ∈ seps, s.length = 2) :
    boundaryTail cs start w seps ≤ start + cs ∧
      (boundaryTail cs start w seps = start + cs ∨
        start + cs / 2 + 2 ≤ boundaryTail cs start w seps) := by
  unfold boundaryTail
  cases hs : sepScan w (cs / 2) seps with
  | some pl =>
    dsimp only
    obtain ⟨sep, hmem, hr, hlen, hhalf⟩ := sepScan_spec hs
    have h2 : sep.length = 2 := hsep sep hmem
    have hne : sep ≠ [] := by
      intro hnil; rw [hnil] at h2; cases h2
    have hb := rfind_le hne hr
    constructor
    · omega
    · right; omega
  | none =>
    dsimp only
    cases hsp : rfind w [' '] with
    | some p =>
      dsimp only
      have hb := rfind_le (by decide : ([' '] : List Char) ≠ []) hsp
      simp only [List.length_cons, List.length_nil] at hb
      by_cases hh : cs / 2 < p
      · rw [if_pos hh]
        constructor
        · omega
        · right; omega
      · rw [if_neg hh]
        exact ⟨le_refl _, Or.inl rfl⟩
    | none => exact ⟨le_refl _, Or.inl rfl⟩

lemma window_length_le (cs : Nat) (t : List Char) (start : Nat) :
    ((t.drop start).take cs).length ≤ cs := by
  rw [List.length_take]
  exact Nat.min_le_left _ _

lemma scSeps_len : ∀ s ∈ scSeps, s.length = 2 := by decide

lemma solSeps_len : ∀ s ∈ solSeps, s.length = 2 := by decide

lemma scEnd_bounds (cs : Nat) (t : List Char) (start : Nat) :
    scEnd cs t start ≤ start + cs ∧
      (scEnd cs t start = start + cs ∨ start + cs / 2 + 2 ≤ scEnd cs t start) := by
  have hw := window_length_le cs t start
  unfold scEnd
  cases hp : rfind ((t.drop start).take cs) ['\n', '\n'] with
  | some p =>
    dsimp only
    have hb := rfind_le (by decide : (['\n', '\n'] : List Char) ≠ []) hp
    simp only [List.length_cons, List.length_nil] at hb
    by_cases hh : cs / 2 < p
    · rw [if_pos hh]
      constructor
      · omega
      · right; omega
    · rw [if_neg hh]
      exact boundaryTail_bounds cs start _ scSeps hw scSeps_len
  | none => exact boundaryTail_bounds cs start _ scSeps hw scSeps_len

lemma scEndFull_bounds (cs : Nat) (t : List Char) (start : Nat) :
    scEndFull cs t start ≤ start + cs ∧
      (scEndFull cs t start = start + cs ∨ start + cs / 2 + 2 ≤ scEndFull cs t start) := by
  unfold scEndFull
  by_cases h : start + cs < t.length
  · rw [if_pos h]; exact scEnd_bounds cs t start
  · rw [if_neg h]; exact ⟨le_refl _, Or.inl rfl⟩

lemma solEndFull_bounds (cs : Nat) (t : List Char) (start : Nat) :
    solEndFull cs t start ≤ start + cs ∧
      (solEndFull cs t start = start + cs ∨ start + cs / 2 + 2 ≤ solEndFull cs t start) := by
  unfold solEndFull solEnd
  by_cases h : start + cs < t.length
  · rw [if_pos h]
    exact boundaryTail_bounds cs start _ solSeps (window_length_le cs t start) solSeps_len
  · rw [if_neg h]; exact ⟨le_refl _, Or.inl rfl⟩

/-! Loop progress and termination. -/

lemma scNext_progress {cs ov : Nat} (h2 : 2 * ov < cs) (t : List Char) (start : Nat) :
    start + 1 ≤ scNext cs ov t start ∨ t.length ≤ scNext cs ov t start := by
  unfold scNext
  obtain ⟨hub, hlb⟩ := scEndFull_bounds cs t start
  by_cases hl : scEndFull cs t start < t.length
  · rw [if_pos hl]
    left
    rcases hlb with h | h <;> omega
  · rw [if_neg hl]
    right
    omega

lemma solNext_progress {cs ov : Nat} (h2 : 2 * ov < cs) (t : List Char) (start : Nat) :
    start + 1 ≤ solEndFull cs t start - ov := by
  obtain ⟨hub, hlb⟩ := solEndFull_bounds cs t start
  rcases hlb with h | h <;> omega

lemma chunkLoopSC_isSome {cs ov : Nat} (h2 : 2 * ov < cs) (t : List Char) :
    ∀ (fuel start : Nat) (acc : List (List Char)),
      t.length - start < fuel → (chunkLoopSC cs ov t fuel start acc).isSome = true := by
  intro fuel
  induction fuel with
  | zero => intro start acc h; omega
  | succ n ih =>
    intro start acc h
    simp only [chunkLoopSC]
    by_cases hl : start < t.length
    · rw [if_pos hl]
      apply ih
      rcases scNext_progress h2 t start with h1 | h1 <;> omega
    · rw [if_neg hl]; rfl

lemma chunkLoopSol_isSome {cs ov : Nat} (h2 : 2 * ov < cs) (keep : List Char → Bool)
    (t : List Char) :
    ∀ (fuel start : Nat) (acc : List (List Char)),
      t.length - start < fuel → (chunkLoopSol cs ov keep t fuel start acc).isSome = true := by
  intro fuel
  induction fuel with
  | zero => intro start acc h; omega
  | succ n ih =>
    intro start acc h
    simp only [chunkLoopSol]
    by_cases hl : start < t.length
    · rw [if_pos hl]
      apply ih
      have h1 := solNext_progress h2 t start
      omega
    · rw [if_neg hl]; rfl

/-! Invariants of every chunk the loops emit. -/

lemma pushChunk_mem {acc : List (List Char)} {ch c : List Char}
    (h : c ∈ pushChunk acc ch) : c ∈ acc ∨ (c = ch ∧ ch ≠ []) := by
  unfold pushChunk at h
  by_cases hch : ch = []
  · rw [if_pos hch] at h; exact Or.inl h
  · rw [if_neg hch] at h
    rcases List.mem_append.mp h with h1 | h1
    · exact Or.inl h1
    · exact Or.inr ⟨List.mem_singleton.mp h1, hch⟩

lemma pushIf_mem {keep : List Char → Bool} {acc : List (List Char)} {ch c : List Char}
    (h : c ∈ pushIf keep acc ch) : c ∈ acc ∨ (c = ch ∧ keep ch = true) := by
  unfold pushIf at h
  by_cases hch : keep ch = true
  · rw [if_pos hch] at h
    rcases List.mem_append.mp h with h1 | h1
    · exact Or.inl h1
    · exact Or.inr ⟨List.mem_singleton.mp h1, hch⟩
  · rw [if_neg hch] at h; exact Or.inl h

lemma chunkLoopSC_all {cs ov : Nat} {t : List Char} {P : List Char → Prop}
    (hP : ∀ start, strip ((t.drop start).take (scEndFull cs t start - start)) ≠ [] →
      P (strip ((t.drop start).take (scEndFull cs t start - start)))) :
    ∀ (fuel start : Nat) (acc chunks : List (List Char)), (∀ c ∈ acc, P c) →
      chunkLoopSC cs ov t fuel start acc = some chunks → ∀ c ∈ chunks, P c := by
  intro fuel
  induction fuel with
  | zero => intro start acc chunks hacc h; cases h
  | succ n ih =>
    intro start acc chunks hacc h
    simp only [chunkLoopSC] at h
    by_cases hl : start < t.length
    · rw [if_pos hl] at h
      refine ih _ _ _ ?_ h
      intro c hc
      rcases pushChunk_mem hc with h1 | ⟨h1, h1ne⟩
      · exact hacc c h1
      · exact h1 ▸ hP start h1ne
    · rw [if_neg hl] at h
      injection h with h
      subst h
      exact hacc

lemma chunkLoopSol_all {cs ov : Nat} {keep : List Char → Bool} {t : List Char}
    {P : List Char → Prop}
    (hP : ∀ start, keep (strip ((t.drop start).take (solEndFull cs t start - start))) = true →
      P (strip ((t.drop start).take (solEndFull cs t start - start)))) :
    ∀ (fuel start : Nat) (acc chunks : List (List Char)), (∀ c ∈ acc, P c) →
      chunkLoopSol cs ov keep t fuel start acc = some chunks → ∀ c ∈ chunks, P c := by
  intro fuel
  induction fuel with
  | zero => intro start acc chunks hacc h; cases h
  | succ n ih =>
    intro start acc chunks hacc h
    simp only [chunkLoopSol] at h
    by_cases hl : start < t.length
    · rw [if_pos hl] at h
      refine ih _ _ _ ?_ h
      intro c hc
      rcases pushIf_mem hc with h1 | ⟨h1, h1k⟩
      · exact hacc c h1
      · exact h1 ▸ hP start h1k
    · rw [if_neg hl] at h
      injection h with h
      subst h
      exact hacc

/-! Whitespace-free text: normalization is the identity and the
boundary search never fires. -/

lemma ne_of_nonws {c x : Char} (h : isWS c = false) (hx : isWS x = true) : c ≠ x := by
  intro he
  subst he
  rw [h] at hx
  cases hx

lemma replaceCRLF_id {text : List Char} (h : ∀ c ∈ text, c ≠ '\r') :
    replaceCRLF text = text := by
  induction text with
  | nil => rfl
  | cons a r ih =>
    rw [replaceCRLF_cons_nonCR (h a (List.mem_cons_self _ _)) r,
        ih (fun c hc => h c (List.mem_cons_of_mem _ hc))]

lemma collapseNL_id {text : List Char} (h : ∀ c ∈ text, c ≠ '\n') :
    collapseNL text 0 = text := by
  induction text with
  | nil => rfl
  | cons a r ih =>
    simp only [collapseNL, if_neg (h a (List.mem_cons_self _ _))]
    rw [ih (fun c hc => h c (List.mem_cons_of_mem _ hc))]
    rfl

lemma scEndFull_ws_free {cs : Nat} {t : List Char} (hws : ∀ c ∈ t, isWS c = false)
    (start : Nat) : scEndFull cs t start = start + cs := by
  have hnot : ∀ c : Char, isWS c = true → c ∉ (t.drop start).take cs := by
    intro c hcw hmem
    have := hws c (List.mem_of_mem_drop (List.mem_of_mem_take hmem))
    rw [this] at hcw
    cases hcw
  have hnl : rfind ((t.drop start).take cs) ['\n', '\n'] = none :=
    rfind_none_of_not_mem (List.mem_cons_self _ _) (hnot '\n' (by decide))
  have hsp : rfind ((t.drop start).take cs) [' '] = none :=
    rfind_none_of_not_mem (List.mem_cons_self _ _) (hnot ' ' (by decide))
  have hsep : sepScan ((t.drop start).take cs) (cs / 2) scSeps = none := by
    apply sepScan_eq_none
    intro sep hsmem
    obtain ⟨c, hc1, hc2⟩ :=
      (by decide : ∀ s ∈ scSeps, ∃ c ∈ s, isWS c = true) sep hsmem
    exact rfind_none_of_not_mem hc1 (hnot c hc2)
  unfold scEndFull scEnd boundaryTail
  by_cases h : start + cs < t.length
  · rw [if_pos h, hnl]
    dsimp only
    rw [hsep]
    dsimp only
    rw [hsp]
  · rw [if_neg h]

lemma chunkLoopSC_ws_free {cs ov : Nat} {t : List Char} (hov : ov < cs)
    (hws : ∀ c ∈ t, isWS c = false) :
    ∀ (fuel start : Nat) (acc : List (List Char)), start < t.length →
      t.length - start < fuel →
      ∃ c rest, chunkLoopSC cs ov t fuel start acc = some (acc ++ c :: rest) ∧
        recon ov (c :: rest) = t.drop start ∧
        joinDrop ov (c :: rest) = t.drop (start + ov) := by
  intro fuel
  induction fuel with
  | zero => intro start acc h1 h2; omega
  | succ n ih =>
    intro start acc hstart h2
    have he : scEndFull cs t start = start + cs := scEndFull_ws_free hws start
    have hnext : scNext cs ov t start =
        if start + cs < t.length then start + cs - ov else start + cs := by
      unfold scNext
      rw [he]
    have hsub : (start + cs) - start = cs := by omega
    have hslice_ws : ∀ c ∈ (t.drop start).take cs, isWS c = false := fun c hc =>
      hws c (List.mem_of_mem_drop (List.mem_of_mem_take hc))
    have hstrip : strip ((t.drop start).take (scEndFull cs t start - start)) =
        (t.drop start).take cs := by
      rw [he, hsub]
      exact strip_of_ws_free hslice_ws
    simp only [chunkLoopSC, if_pos hstart, hstrip, hnext]
    by_cases hlt : start + cs < t.length
    · rw [if_pos hlt]
      have hwne : (t.drop start).take cs ≠ [] := by
        apply List.length_pos.mp
        rw [List.length_take, List.length_drop]
        exact lt_min (by omega) (by omega)
      have hpush : pushChunk acc ((t.drop start).take cs) = acc ++ [(t.drop start).take cs] := by
        unfold pushChunk
        rw [if_neg hwne]
      rw [hpush]
      have hstart' : start + cs - ov < t.length := by omega
      have hm : t.length - (start + cs - ov) < n := by omega
      obtain ⟨c', rest', hloop, hrec, hjoin⟩ := ih (start + cs - ov) (acc ++ [(t.drop start).take cs]) hstart' hm
      refine ⟨(t.drop start).take cs, c' :: rest', ?_, ?_, ?_⟩
      · rw [hloop, List.append_assoc, List.singleton_append]
      · have hd : start + cs - ov + ov = start + cs := by omega
        rw [hd] at hjoin
        show (t.drop start).take cs ++ joinDrop ov (c' :: rest') = t.drop start
        rw [hjoin, ← List.drop_drop, List.take_append_drop]
      · have hd : start + cs - ov + ov = start + cs := by omega
        rw [hd] at hjoin
        show ((t.drop start).take cs).drop ov ++ joinDrop ov (c' :: rest') = t.drop (start + ov)
        rw [hjoin, List.drop_take, List.drop_drop]
        have hd2 : t.drop (start + cs) = (t.drop (start + ov)).drop (cs - ov) := by
          rw [List.drop_drop]
          congr 1
          omega
        rw [hd2, List.take_append_drop]
    · rw [if_neg hlt]
      have hslice : (t.drop start).take cs = t.drop start :=
        List.take_of_length_le (by rw [List.length_drop]; omega)
      have hwne : t.drop start ≠ [] := by
        apply List.length_pos.mp
        rw [List.length_drop]
        omega
      have hpush : pushChunk acc ((t.drop start).take cs) = acc ++ [t.drop start] := by
        unfold pushChunk
        rw [hslice, if_neg hwne]
      rw [hpush]
      obtain ⟨m, hn⟩ : ∃ m, n = m + 1 := by
        cases n with
        | zero => omega
        | succ m => exact ⟨m, rfl⟩
      subst hn
      refine ⟨t.drop start, [], ?_, ?_, ?_⟩
      · simp only [chunkLoopSC, if_neg (by omega : ¬ (start + cs < t.length))]
      · show t.drop start ++ joinDrop ov [] = t.drop start
        simp [joinDrop]
      · show (t.drop start).drop ov ++ joinDrop ov [] = t.drop (start + ov)
        simp [joinDrop, List.drop_drop]

/-! Shared helpers for the claim theorems. -/

lemma stripped_chunk_P {cs e start : Nat} {t : List Char} (hec : e ≤ start + cs)
    (hne : strip ((t.drop start).take (e - start)) ≠ []) :
    strip ((t.drop start).take (e - start)) ≠ [] ∧
    (strip ((t.drop start).take (e - start))).any (fun ch => !isWS ch) = true ∧
    (strip ((t.drop start).take (e - start))).length ≤ cs := by
  refine ⟨hne, ?_, ?_⟩
  · obtain ⟨c, hc, hw⟩ := exists_nonws_of_strip_ne_nil hne
    exact List.any_eq_true.mpr ⟨c, hc, by simp [hw]⟩
  · calc (strip ((t.drop start).take (e - start))).length
        ≤ ((t.drop start).take (e - start)).length := strip_length_le _
      _ ≤ e - start := by rw [List.length_take]; exact Nat.min_le_left _ _
      _ ≤ cs := by omega

lemma normalizeSol_no_ctrl {ch : Char} {text : List Char} (h : ch ∈ normalizeSol text) :
    ch ≠ '\n' ∧ ch ≠ '\r' ∧ ch ≠ '\t' := by
  rcases normalizeSol_chars h with h1 | h1
  · subst h1; exact ⟨by decide, by decide, by decide⟩
  · exact ⟨ne_of_nonws h1 (by decide), ne_of_nonws h1 (by decide),
      ne_of_nonws h1 (by decide)⟩

lemma runBatches_tried (batchOk : List Nat → Bool) :
    ∀ (bs : List (List Nat)) (s : RunSummary),
      (runBatches s batchOk bs).batchesTried = s.batchesTried + bs.length := by
  intro bs
  induction bs with
  | nil => intro s; rfl
  | cons b rest ih =>
    intro s
    simp only [runBatches, List.foldl_cons]
    by_cases hb : batchOk b
    · rw [if_pos hb]
      have h2 := ih ⟨s.inserted + b.length, s.errors, s.deleteAttempted, s.batchesTried + 1⟩
      unfold runBatches at h2
      rw [h2]
      simp [List.length_cons]
      omega
    · rw [if_neg hb]
      have h2 := ih ⟨s.inserted, s.errors + b.length, s.deleteAttempted, s.batchesTried + 1⟩
      unfold runBatches at h2
      rw [h2]
      simp [List.length_cons]
      omega

/-! The claims. -/

/-- C1 counterexample: for the santa clara chunker with
`chunk_size = 10`, `overlap = 2` (so `overlap < chunk_size`) and the
non-empty input `"aaaaaaaaa bbbbbbbbbb"` (no trailing whitespace),
concatenating the first chunk with every later chunk minus the
configured overlap does NOT reconstruct the input: the space at the
first chunk boundary is lost to the per-chunk `strip()`. -/
theorem C1_reconstruction_cex :
    chunk_text_sc 10 2 (String.toList "aaaaaaaaa bbbbbbbbbb") =
      some [String.toList "aaaaaaaaa", String.toList "a bbbbbbbb", String.toList "bbbb"] ∧
    recon 2 [String.toList "aaaaaaaaa", String.toList "a bbbbbbbb", String.toList "bbbb"] ≠
      rstrip (String.toList "aaaaaaaaa bbbbbbbbbb") ∧
    rstrip (String.toList "aaaaaaaaa bbbbbbbbbb") = String.toList "aaaaaaaaa bbbbbbbbbb" ∧
    (2 : Nat) < 10 ∧ String.toList "aaaaaaaaa bbbbbbbbbb" ≠ [] := by decide

/-- C1 (amended): for non-empty text containing no whitespace at all
(so the per-chunk trimming and the boundary search are inert) and any
`overlap < chunk_size`, the santa clara chunker returns a non-empty
sequence, and the first chunk followed by every later chunk minus the
configured overlap reconstructs the input exactly. -/
theorem C1_reconstruction_nows :
    ∀ (text : List Char) (cs ov : Nat), ov < cs → text ≠ [] →
      (∀ c ∈ text, isWS c = false) →
      ∃ chunks, chunk_text_sc cs ov text = some chunks ∧ chunks ≠ [] ∧
        recon ov chunks = text := by
  intro text cs ov hov hne hws
  have hnr : ∀ c ∈ text, c ≠ '\r' := fun c hc => ne_of_nonws (hws c hc) (by decide)
  have hnn : ∀ c ∈ text, c ≠ '\n' := fun c hc => ne_of_nonws (hws c hc) (by decide)
  have hstriptext : strip text = text := strip_of_ws_free hws
  have hnorm : strip (collapseNL (replaceCRLF text) 0) = text := by
    rw [replaceCRLF_id hnr, collapseNL_id hnn, hstriptext]
  simp only [chunk_text_sc, hnorm, hstriptext, if_neg hne]
  by_cases hlen : text.length ≤ cs
  · rw [if_pos hlen]
    exact ⟨[text], rfl, by simp, by simp [recon, joinDrop]⟩
  · rw [if_neg hlen]
    obtain ⟨c, rest, hloop, hrec, hjoin⟩ :=
      chunkLoopSC_ws_free hov hws (text.length + 1) 0 []
        (List.length_pos.mpr hne) (by omega)
    refine ⟨c :: rest, by simpa using hloop, by simp, by simpa using hrec⟩

/-- C1 witness: the amended reconstruction theorem applied to the
whitespace-free input `"abcdef"` with `chunk_size = 4`, `overlap = 1`. -/
theorem C1_reconstruction_nows_witness :
    ∃ chunks, chunk_text_sc 4 1 (String.toList "abcdef") = some chunks ∧ chunks ≠ [] ∧
      recon 1 chunks = String.toList "abcdef" :=
  C1_reconstruction_nows (String.toList "abcdef") 4 1 (by decide) (by decide) (by decide)

/-- C2 counterexample: the santa clara chunker does NOT terminate for
every `overlap < chunk_size`.  With `chunk_size = 10`, `overlap = 9`
and the 20-character input below (already in normalized form), the
first window's paragraph break at index 7 sets `end = 9`, and
`start = end - overlap` maps state `start = 0` back to `start = 0`
with `start < len(text)` still true — the Python `while` loop repeats
this state forever, so the fuelled embedding exhausts any fuel. -/
theorem C2_nontermination_cex :
    chunk_text_sc 10 9 (String.toList "abcdefg\n\nXYZXYZXYZXY") = none ∧
    (9 : Nat) < 10 ∧
    strip (collapseNL (replaceCRLF (String.toList "abcdefg\n\nXYZXYZXYZXY")) 0) =
      String.toList "abcdefg\n\nXYZXYZXYZXY" ∧
    scNext 10 9 (String.toList "abcdefg\n\nXYZXYZXYZXY") 0 = 0 ∧
    0 < (String.toList "abcdefg\n\nXYZXYZXYZXY").length := by decide

/-- C2 (amended): the chunkers terminate for every input whenever
`2 * overlap < chunk_size` (each loop iteration then advances `start`
by at least one character): both the santa clara and the solano v3
chunker return a result within `len(text) + 1` iterations. -/
theorem C2_terminates :
    ∀ (text : List Char) (cs ov : Nat), 2 * ov < cs →
      (chunk_text_sc cs ov text).isSome = true ∧
      (chunk_text_v3 cs ov text).isSome = true := by
  intro text cs ov h2
  constructor
  · simp only [chunk_text_sc]
    by_cases h0 : strip text = []
    · rw [if_pos h0]; rfl
    · rw [if_neg h0]
      by_cases hlen : (strip (collapseNL (replaceCRLF text) 0)).length ≤ cs
      · rw [if_pos hlen]; rfl
      · rw [if_neg hlen]
        exact chunkLoopSC_isSome h2 _ _ 0 [] (by omega)
  · simp only [chunk_text_v3]
    by_cases h0 : strip text = []
    · rw [if_pos h0]; rfl
    · rw [if_neg h0]
      by_cases hlen : (normalizeSol text).length ≤ cs
      · rw [if_pos hlen]; rfl
      · rw [if_neg hlen]
        exact chunkLoopSol_isSome h2 _ _ _ 0 [] (by omega)

/-- C2 witness: termination at `chunk_size = 10`, `overlap = 2` on a
concrete input. -/
theorem C2_terminates_witness :
    (chunk_text_sc 10 2 (String.toList "hello world hello world")).isSome = true ∧
    (chunk_text_v3 10 2 (String.toList "hello world hello world")).isSome = true :=
  C2_terminates (String.toList "hello world hello world") 10 2 (by decide)

/-- C3 counterexample: the solano v3 categorizer checks the behavioral
group BEFORE the obstetric group.  The input "pregnancy psychiatric"
contains an obstetric keyword and a behavioral keyword and no keyword
of any earlier group (cardiac through toxicology), yet the returned
label is "Behavioral", not the obstetric label. -/
theorem C3_priority_cex :
    categorize_protocol_v3 (String.toList "pregnancy psychiatric") [] =
      String.toList "Behavioral" ∧
    String.toList "Behavioral" ≠ String.toList "Obstetrics" ∧
    v3ObstetricHit (lowerStr (String.toList "pregnancy psychiatric" ++ ' ' :: [])) = true ∧
    v3BehavioralHit (lowerStr (String.toList "pregnancy psychiatric" ++ ' ' :: [])) = true ∧
    v3CardiacHit (lowerStr (String.toList "pregnancy psychiatric" ++ ' ' :: [])) = false ∧
    v3TraumaHit (lowerStr (String.toList "pregnancy psychiatric" ++ ' ' :: [])) = false ∧
    v3PediatricHit (lowerStr (String.toList "pregnancy psychiatric" ++ ' ' :: [])) = false ∧
    v3RespiratoryHit (lowerStr (String.toList "pregnancy psychiatric" ++ ' ' :: [])) = false ∧
    v3NeuroHit (lowerStr (String.toList "pregnancy psychiatric" ++ ' ' :: [])) = false ∧
    v3ToxHit (lowerStr (String.toList "pregnancy psychiatric" ++ ' ' :: [])) = false := by
  decide

/-- C3 (amended): in the solano v3 categorizer the behavioral check
precedes the obstetric check, so an input containing both an obstetric
and a behavioral keyword and no keyword of the earlier groups (cardiac
through toxicology) is labelled "Behavioral"; in the santa clara
categorizer (section-7 clinical path) the obstetric check precedes the
behavioral one, and such an input is labelled "OB/GYN" as the claimed
order describes. -/
theorem C3_priority :
    (∀ (doc_name category_path : List Char),
      v3ObstetricHit (lowerStr (doc_name ++ ' ' :: category_path)) = true →
      v3BehavioralHit (lowerStr (doc_name ++ ' ' :: category_path)) = true →
      v3CardiacHit (lowerStr (doc_name ++ ' ' :: category_path)) = false →
      v3TraumaHit (lowerStr (doc_name ++ ' ' :: category_path)) = false →
      v3PediatricHit (lowerStr (doc_name ++ ' ' :: category_path)) = false →
      v3RespiratoryHit (lowerStr (doc_name ++ ' ' :: category_path)) = false →
      v3NeuroHit (lowerStr (doc_name ++ ' ' :: category_path)) = false →
      v3ToxHit (lowerStr (doc_name ++ ' ' :: category_path)) = false →
      categorize_protocol_v3 doc_name category_path = String.toList "Behavioral") ∧
    (∀ (protocol_num title content : List Char),
      strStarts protocol_num (String.toList "7") = true →
      scObGynHit (lowerStr (title ++ ' ' :: content)) = true →
      scBehavioralHit (lowerStr (title ++ ' ' :: content)) = true →
      scCardiacHit (lowerStr (title ++ ' ' :: content)) = false →
      scTraumaHit (lowerStr (title ++ ' ' :: content)) = false →
      scPediatricHit (lowerStr (title ++ ' ' :: content)) = false →
      scRespiratoryHit (lowerStr (title ++ ' ' :: content)) = false →
      scNeuroHit (lowerStr (title ++ ' ' :: content)) = false →
      scToxHit (lowerStr (title ++ ' ' :: content)) = false →
      categorize_protocol_sc protocol_num title content = String.toList "OB/GYN") := by
  constructor
  · intro dn cp hob hbe h1 h2 h3 h4 h5 h6
    simp [categorize_protocol_v3, hbe, h1, h2, h3, h4, h5, h6]
  · intro num title content h7 hob hbe h1 h2 h3 h4 h5 h6
    have h7a : strStarts num ['7'] = true := by simpa using h7
    simp [categorize_protocol_sc, h7, h7a, hob, h1, h2, h3, h4, h5, h6]

/-- C3 witness: the amended priority theorem applied to concrete
inputs for both categorizers. -/
theorem C3_priority_witness :
    categorize_protocol_v3 (String.toList "pregnancy psychiatric") [] =
      String.toList "Behavioral" ∧
    categorize_protocol_sc (String.toList "7") (String.toList "obstetric behavioral") [] =
      String.toList "OB/GYN" :=
  ⟨C3_priority.1 (String.toList "pregnancy psychiatric") [] (by decide) (by decide)
      (by decide) (by decide) (by decide) (by decide) (by decide) (by decide),
   C3_priority.2 (String.toList "7") (String.toList "obstetric behavioral") [] (by decide)
      (by decide) (by decide) (by decide) (by decide) (by decide) (by decide) (by decide)
      (by decide)⟩

/-- C4 counterexample: in the santa clara `main`, when the pre-insert
delete fails (the store returns failure) and one chunk is pending, the
run still attempts and completes the upsert: the returned summary
shows the delete was attempted, and one record was inserted and one
batch tried — the run does not abort. -/
theorem C4_delete_failure_cex :
    mainRunSC [1] false (fun _ => true) = ⟨1, 0, true, 1⟩ := by decide

/-- C4 (amended): the delete outcome is not fatal: both the santa
clara run (which discards the delete result) and the solano v3 run
(which only prints a warning) behave identically whether the delete
succeeded or failed, and whenever chunks are pending every
embed+upsert batch is attempted. -/
theorem C4_delete_not_fatal :
    (∀ (chunks : List Nat) (batchOk : List Nat → Bool) (deleteOk : Bool),
      mainRunSC chunks deleteOk batchOk = mainRunSC chunks true batchOk ∧
      mainRunV3 chunks deleteOk batchOk = mainRunV3 chunks true batchOk) ∧
    (∀ (chunks : List Nat) (batchOk : List Nat → Bool) (deleteOk : Bool), chunks ≠ [] →
      (mainRunSC chunks deleteOk batchOk).batchesTried = (toBatches 20 chunks).length ∧
      (mainRunV3 chunks deleteOk batchOk).batchesTried = (toBatches 10 chunks).length) := by
  constructor
  · intro chunks batchOk deleteOk
    exact ⟨rfl, rfl⟩
  · intro chunks batchOk deleteOk hne
    constructor
    · unfold mainRunSC
      rw [if_neg hne, runBatches_tried]
      simp
    · unfold mainRunV3
      rw [runBatches_tried]
      simp

/-- C4 witness: the amended theorem applied to a one-chunk run with a
failed delete. -/
theorem C4_delete_not_fatal_witness :
    (mainRunSC [1] false (fun _ => true)).batchesTried = (toBatches 20 [1]).length ∧
    (mainRunV3 [1] false (fun _ => true)).batchesTried = (toBatches 10 [1]).length :=
  C4_delete_not_fatal.2 [1] (fun _ => true) false (by decide)

/-- C5 counterexample: the solano v3 categorizer can return a label
outside the spec's fixed taxonomy: with no keyword hit, the second
segment of the category path is returned verbatim ("BBB" here). -/
theorem C5_taxonomy_cex :
    categorize_protocol_v3 [] (String.toList "AAA/BBB") = String.toList "BBB" ∧
    String.toList "BBB" ∉ specTaxonomy := by decide

/-- C5 (amended): the categorizers are total — for every input exactly
one label is returned and no error is possible (both embeddings are
total functions) — but the solano v3 label is only drawn from the fixed
keyword taxonomy OR is the category path's second segment; the santa
clara categorizer always returns a label of the fixed taxonomy. -/
theorem C5_label_totality :
    (∀ (doc_name category_path : List Char),
      categorize_protocol_v3 doc_name category_path ∈ v3KeywordLabels ∨
      categorize_protocol_v3 doc_name category_path = v3PathTail category_path) ∧
    (∀ (protocol_num title content : List Char),
      categorize_protocol_sc protocol_num title content ∈ specTaxonomy) := by
  constructor
  · intro dn cp
    simp only [categorize_protocol_v3]
    by_cases h1 : v3CardiacHit (lowerStr (dn ++ ' ' :: cp)) = true
    · rw [if_pos h1]; exact Or.inl (by decide)
    rw [if_neg h1]
    by_cases h2 : v3TraumaHit (lowerStr (dn ++ ' ' :: cp)) = true
    · rw [if_pos h2]; exact Or.inl (by decide)
    rw [if_neg h2]
    by_cases h3 : v3PediatricHit (lowerStr (dn ++ ' ' :: cp)) = true
    · rw [if_pos h3]; exact Or.inl (by decide)
    rw [if_neg h3]
    by_cases h4 : v3RespiratoryHit (lowerStr (dn ++ ' ' :: cp)) = true
    · rw [if_pos h4]; exact Or.inl (by decide)
    rw [if_neg h4]
    by_cases h5 : v3NeuroHit (lowerStr (dn ++ ' ' :: cp)) = true
    · rw [if_pos h5]; exact Or.inl (by decide)
    rw [if_neg h5]
    by_cases h6 : v3ToxHit (lowerStr (dn ++ ' ' :: cp)) = true
    · rw [if_pos h6]; exact Or.inl (by decide)
    rw [if_neg h6]
    by_cases h7 : v3BehavioralHit (lowerStr (dn ++ ' ' :: cp)) = true
    · rw [if_pos h7]; exact Or.inl (by decide)
    rw [if_neg h7]
    by_cases h8 : v3ObstetricHit (lowerStr (dn ++ ' ' :: cp)) = true
    · rw [if_pos h8]; exact Or.inl (by decide)
    rw [if_neg h8]
    by_cases h9 : v3EnvironmentalHit (lowerStr (dn ++ ' ' :: cp)) = true
    · rw [if_pos h9]; exact Or.inl (by decide)
    rw [if_neg h9]
    by_cases h10 : hasSub (lowerStr (dn ++ ' ' :: cp)) (String.toList "procedure") = true
    · rw [if_pos h10]; exact Or.inl (by decide)
    rw [if_neg h10]
    by_cases h11 : (hasSub (lowerStr (dn ++ ' ' :: cp)) (String.toList "policy") ||
        hasSub (lowerStr (dn ++ ' ' :: cp)) (String.toList "policies")) = true
    · rw [if_pos h11]; exact Or.inl (by decide)
    rw [if_neg h11]
    by_cases h12 : hasSub (lowerStr (dn ++ ' ' :: cp)) (String.toList "assessment") = true
    · rw [if_pos h12]; exact Or.inl (by decide)
    rw [if_neg h12]
    exact Or.inr rfl
  · intro num title content
    simp only [categorize_protocol_sc]
    repeat' split
    all_goals decide

/-- C6 counterexample: when no short name is supplied and no pattern
matches, the solano parser does not return the "Unknown" sentinel: it
returns the first 20 characters with spaces replaced by hyphens. -/
theorem C6_sentinel_cex :
    extract_protocol_number (String.toList "General Guidance") [] =
      String.toList "General-Guidance" ∧
    String.toList "General-Guidance" ≠ String.toList "Unknown" := by decide

/-- C6 (amended): with no code isolated, the santa clara
`parse_filename` returns the sentinel "Unknown" with the whole cleaned
name (underscores as spaces) as the title, exactly as claimed; the
solano `extract_protocol_number` instead falls back to the first 20
characters of the document name with spaces replaced by hyphens and
never produces an "Unknown" sentinel. -/
theorem C6_sentinel :
    (∀ (filename : List Char), headDigit (replacePdf filename) = false →
      parse_filename filename =
        (String.toList "Unknown", underscoreToSpace (replacePdf filename))) ∧
    (∀ (doc_name : List Char), solPatterns doc_name = none →
      extract_protocol_number doc_name [] =
        (doc_name.take 20).map (fun c => if c = ' ' then '-' else c)) := by
  constructor
  · intro filename h
    simp only [parse_filename]
    cases hn : replacePdf filename with
    | nil => rfl
    | cons c rest =>
      rw [hn] at h
      simp only [headDigit] at h
      dsimp only
      rw [if_neg (by simp [h])]
  · intro dn h
    simp only [extract_protocol_number]
    rw [h]

/-- C6 witness: the amended theorem applied to "NOTES.pdf" (santa
clara side) and "General Guidance" (solano side). -/
theorem C6_sentinel_witness :
    parse_filename (String.toList "NOTES.pdf") =
      (String.toList "Unknown", underscoreToSpace (replacePdf (String.toList "NOTES.pdf"))) ∧
    extract_protocol_number (String.toList "General Guidance") [] =
      ((String.toList "General Guidance").take 20).map
        (fun c => if c = ' ' then '-' else c) :=
  ⟨C6_sentinel.1 (String.toList "NOTES.pdf") (by decide),
   C6_sentinel.2 (String.toList "General Guidance") (by decide)⟩

/-- C7: the scenario of the spec — parsing the document name
"106_-_PERSONNEL_INVESTIGATION_AND_DISCIPLINE.pdf" with no short-name
metadata yields protocol number "106" and title
"PERSONNEL INVESTIGATION AND DISCIPLINE". -/
theorem C7_parse_scenario :
    parse_filename (String.toList "106_-_PERSONNEL_INVESTIGATION_AND_DISCIPLINE.pdf") =
      (String.toList "106", String.toList "PERSONNEL INVESTIGATION AND DISCIPLINE") := by
  decide

/-- C8: every chunk returned by the santa clara chunker and by the
solano v3 chunker (for `overlap < chunk_size`) is non-empty, contains
a non-whitespace character, and is at most `chunk_size` characters
long (tolerance zero). -/
theorem C8_chunk_invariants :
    (∀ (text : List Char) (cs ov : Nat) (chunks : List (List Char)) (c : List Char),
      ov < cs → chunk_text_sc cs ov text = some chunks → c ∈ chunks →
      c ≠ [] ∧ c.any (fun ch => !isWS ch) = true ∧ c.length ≤ cs) ∧
    (∀ (text : List Char) (cs ov : Nat) (chunks : List (List Char)) (c : List Char),
      ov < cs → chunk_text_v3 cs ov text = some chunks → c ∈ chunks →
      c ≠ [] ∧ c.any (fun ch => !isWS ch) = true ∧ c.length ≤ cs) := by
  constructor
  · intro text cs ov chunks c _hov hsome hc
    simp only [chunk_text_sc] at hsome
    by_cases h0 : strip text = []
    · rw [if_pos h0] at hsome
      injection hsome with hsome
      subst hsome
      cases hc
    · rw [if_neg h0] at hsome
      by_cases hlen : (strip (collapseNL (replaceCRLF text) 0)).length ≤ cs
      · rw [if_pos hlen] at hsome
        injection hsome with hsome
        subst hsome
        rw [List.mem_singleton] at hc
        subst hc
        obtain ⟨c0, hc0, hw0⟩ := strip_ne_nil_parts h0
        have hc0n : c0 ∈ strip (collapseNL (replaceCRLF text) 0) :=
          strip_mem_of_nonws
            (collapseNL_mem (ne_of_nonws hw0 (by decide)) _ 0
              (replaceCRLF_mem (ne_of_nonws hw0 (by decide)) hc0)) hw0
        exact ⟨List.ne_nil_of_mem hc0n,
          List.any_eq_true.mpr ⟨c0, hc0n, by simp [hw0]⟩, hlen⟩
      · rw [if_neg hlen] at hsome
        have hall : ∀ c2 ∈ chunks,
            c2 ≠ [] ∧ c2.any (fun ch => !isWS ch) = true ∧ c2.length ≤ cs := by
          refine chunkLoopSC_all ?_ _ 0 [] chunks ?_ hsome
          · intro start hne
            exact stripped_chunk_P (scEndFull_bounds cs _ start).1 hne
          · intro c2 hc2
            exact absurd hc2 (List.not_mem_nil _)
        exact hall c hc
  · intro text cs ov chunks c _hov hsome hc
    simp only [chunk_text_v3] at hsome
    by_cases h0 : strip text = []
    · rw [if_pos h0] at hsome
      injection hsome with hsome
      subst hsome
      cases hc
    · rw [if_neg h0] at hsome
      by_cases hlen : (normalizeSol text).length ≤ cs
      · rw [if_pos hlen] at hsome
        injection hsome with hsome
        subst hsome
        rw [List.mem_singleton] at hc
        subst hc
        obtain ⟨c0, hc0, hw0⟩ := strip_ne_nil_parts h0
        have hc0n : c0 ∈ normalizeSol text :=
          strip_mem_of_nonws (wsSub_mem hw0 text false hc0) hw0
        exact ⟨List.ne_nil_of_mem hc0n,
          List.any_eq_true.mpr ⟨c0, hc0n, by simp [hw0]⟩, hlen⟩
      · rw [if_neg hlen] at hsome
        have hall : ∀ c2 ∈ chunks,
            c2 ≠ [] ∧ c2.any (fun ch => !isWS ch) = true ∧ c2.length ≤ cs := by
          refine chunkLoopSol_all ?_ _ 0 [] chunks ?_ hsome
          · intro start hkeep
            have hne : strip (((normalizeSol text).drop start).take
                (solEndFull cs (normalizeSol text) start - start)) ≠ [] := by
              intro hnil
              rw [hnil] at hkeep
              simp at hkeep
            exact stripped_chunk_P (solEndFull_bounds cs _ start).1 hne
          · intro c2 hc2
            exact absurd hc2 (List.not_mem_nil _)
        exact hall c hc

/-- C8 witness: the invariant theorem applied to a concrete chunk of a
concrete santa clara run. -/
theorem C8_chunk_invariants_witness :
    String.toList "abcd" ≠ [] ∧
    (String.toList "abcd").any (fun ch => !isWS ch) = true ∧
    (String.toList "abcd").length ≤ 4 :=
  C8_chunk_invariants.1 (String.toList "abcdef") 4 1
    [String.toList "abcd", String.toList "def"] (String.toList "abcd")
    (by decide) (by decide) (by decide)

/-- C9: in the whitespace-collapsing chunkers (ingest_solano_v3.py and
ingest_to_supabase.py) every returned chunk is free of newline,
carriage-return and tab characters, and the `"\n\n"` paragraph
separator of their boundary search can never match inside any window
of the normalized text. -/
theorem C9_no_ctrl_chars :
    (∀ (text : List Char) (cs ov : Nat) (chunks : List (List Char)) (c : List Char) (ch : Char),
      chunk_text_v3 cs ov text = some chunks → c ∈ chunks → ch ∈ c →
      ch ≠ '\n' ∧ ch ≠ '\r' ∧ ch ≠ '\t') ∧
    (∀ (text : List Char) (cs ov : Nat) (chunks : List (List Char)) (c : List Char) (ch : Char),
      chunk_text_sup cs ov text = some chunks → c ∈ chunks → ch ∈ c →
      ch ≠ '\n' ∧ ch ≠ '\r' ∧ ch ≠ '\t') ∧
    (∀ (text : List Char) (start k : Nat),
      rfind (((normalizeSol text).drop start).take k) ['\n', '\n'] = none) := by
  have hloopP : ∀ (text : List Char) (cs ov : Nat) (keep : List Char → Bool)
      (chunks : List (List Char)),
      chunkLoopSol cs ov keep (normalizeSol text) ((normalizeSol text).length + 1) 0 [] =
        some chunks →
      ∀ c ∈ chunks, ∀ ch ∈ c, ch ≠ '\n' ∧ ch ≠ '\r' ∧ ch ≠ '\t' := by
    intro text cs ov keep chunks hsome
    refine chunkLoopSol_all ?_ _ 0 [] chunks (by simp) hsome
    intro start _hkeep ch hch
    exact normalizeSol_no_ctrl
      (List.mem_of_mem_drop (List.mem_of_mem_take (strip_sublist hch)))
  have hsingle : ∀ (text : List Char) (ch : Char), ch ∈ normalizeSol text →
      ch ≠ '\n' ∧ ch ≠ '\r' ∧ ch ≠ '\t' := fun _ _ h => normalizeSol_no_ctrl h
  refine ⟨?_, ?_, ?_⟩
  · intro text cs ov chunks c ch hsome hc hch
    simp only [chunk_text_v3] at hsome
    by_cases h0 : strip text = []
    · rw [if_pos h0] at hsome
      injection hsome with hsome
      subst hsome
      cases hc
    · rw [if_neg h0] at hsome
      by_cases hlen : (normalizeSol text).length ≤ cs
      · rw [if_pos hlen] at hsome
        injection hsome with hsome
        subst hsome
        rw [List.mem_singleton] at hc
        subst hc
        exact hsingle text ch hch
      · rw [if_neg hlen] at hsome
        exact hloopP text cs ov _ chunks hsome c hc ch hch
  · intro text cs ov chunks c ch hsome hc hch
    simp only [chunk_text_sup] at hsome
    by_cases h0 : strip text = []
    · rw [if_pos h0] at hsome
      injection hsome with hsome
      subst hsome
      cases hc
    · rw [if_neg h0] at hsome
      by_cases hlen : (normalizeSol text).length ≤ cs
      · rw [if_pos hlen] at hsome
        injection hsome with hsome
        subst hsome
        rw [List.mem_singleton] at hc
        subst hc
        exact hsingle text ch hch
      · rw [if_neg hlen] at hsome
        exact hloopP text cs ov _ chunks hsome c hc ch hch
  · intro text start k
    cases h : rfind (((normalizeSol text).drop start).take k) ['\n', '\n'] with
    | none => rfl
    | some p =>
      have h1 := rfind_mem h '\n' (List.mem_cons_self _ _)
      have h2 : '\n' ∈ normalizeSol text :=
        List.mem_of_mem_drop (List.mem_of_mem_take h1)
      exact absurd rfl (normalizeSol_no_ctrl h2).1

/-- C9 witness: the theorem applied to the concrete run
`chunk_text_v3 100 10 "a\nb\tc" = some ["a b c"]` at the character 'a'. -/
theorem C9_no_ctrl_chars_witness :
    ('a' : Char) ≠ '\n' ∧ ('a' : Char) ≠ '\r' ∧ ('a' : Char) ≠ '\t' :=
  C9_no_ctrl_chars.1 (String.toList "a\nb\tc") 100 10 [String.toList "a b c"]
    (String.toList "a b c") 'a' (by decide) (by decide) (by decide)

/-- C10: the chunk identity key of ingest_to_supabase.py hashes only
the constant agency name, the document's `long_name` and the chunk
ordinal: any two documents with the same `long_name` — whatever their
content, short name, category path or URL — get identical `chunk_id`
values at equal ordinals, for any digest function; in particular the
key is not injective across distinct documents. -/
theorem C10_chunk_key :
    (∀ (md5hex : String → String) (d1 d2 : SolanoDoc) (i : Nat),
      d1.long_name = d2.long_name →
      solanoChunkId md5hex d1 i = solanoChunkId md5hex d2 i) ∧
    (∃ d1 d2 : SolanoDoc, d1 ≠ d2 ∧ ∀ (md5hex : String → String) (i : Nat),
      solanoChunkId md5hex d1 i = solanoChunkId md5hex d2 i) := by
  constructor
  · intro md5hex d1 d2 i h
    unfold solanoChunkId solanoChunkKeyInput
    rw [h]
  · refine ⟨⟨"Adult Protocol", "text one", "", "", ""⟩,
      ⟨"Adult Protocol", "text two", "P-1", "Protocols/Cardiac", "http"⟩, ?_, ?_⟩
    · decide
    · intro md5hex i
      rfl

/-- C10 witness: two documents equal in `long_name` but different in
every other field receive the same key at ordinal 3. -/
theorem C10_chunk_key_witness :
    solanoChunkId id ⟨"Adult Protocol", "text one", "", "", ""⟩ 3 =
      solanoChunkId id ⟨"Adult Protocol", "text two", "P-1", "Protocols/Cardiac", "http"⟩ 3 :=
  C10_chunk_key.1 id ⟨"Adult Protocol", "text one", "", "", ""⟩
    ⟨"Adult Protocol", "text two", "P-1", "Protocols/Cardiac", "http"⟩ 3 rfl

